import Mathlib

/-!
Verification of the `token_cloak` Python package against its specification.

Bits are modelled as `Bool` and a Python `bitarray` as a `List Bool` whose
index 0 is the first (most visible / most significant) element, exactly as
`bitarray` indexes.  Python machine-free integers are `Nat`; every masking
operation of the source is carried over literally (`&&&`, `>>>`, `<<<`, `%`).
Fallible code is modelled with `Option`/`Except`.
-/

set_option maxRecDepth 100000

namespace TokenCloak

/-- Bit `j` of `i`, least significant bit first: the source computes it as
`(i & (1 << j)) >> j`, which equals `Nat.testBit i j`. -/
def pyBit (i j : Nat) : Bool := i.testBit j

/-- `utils.int_to_bitarray(i, bits)`: starting from an empty bitarray, for
`j = 0 .. bits-1` insert bit `j` of `i` (least significant first) at the front.
The result lists the bits most significant first. -/
def int_to_bitarray (i bits : Nat) : List Bool :=
  (List.range bits).foldl (fun output j => i.testBit j :: output) []

/-- `utils.bitarray_to_int(b)`: `int(b.to01(), 2)`, the most-significant-bit-first
value of the bit list.  (Python raises on an empty bitarray; the claims below
only apply it to nonempty lists.) -/
def bitarray_to_int (b : List Bool) : Nat :=
  b.foldl (fun acc bit => 2 * acc + bit.toNat) 0

/-- Python `list.insert(pos, x)` semantics on a bitarray: insert before index
`pos`, appending when `pos ≥ length`. -/
def pyInsert (l : List Bool) (pos : Nat) (x : Bool) : List Bool :=
  l.take pos ++ x :: l.drop pos

/-- Python `content.pop(position)`: the removed bit and the remaining buffer.
The claims guarantee every position is in range at the time of use (Python
raises IndexError otherwise, and the default `false` is never read). -/
def pyPopBit (l : List Bool) (pos : Nat) : Bool × List Bool :=
  (l.getD pos false, l.eraseIdx pos)

/-- `BitCollection.insert_bitarray(b, positions)`: for `j, position` in
`enumerate(positions)` insert `b[j]` at index `position` of the content as it
currently stands.  The two lists are consumed in lockstep, which is exactly
`b[j]` at step `j`; callers always supply `len(b) = len(positions)`. -/
def insert_bitarray : List Bool → List Bool → List Nat → List Bool
  | content, _, [] => content
  | content, [], _ :: _ => content
  | content, bit :: bs, p :: ps => insert_bitarray (pyInsert content p bit) bs ps

def insert_int_go : List Bool → Nat → Nat → List Nat → List Bool
  | content, _, _, [] => content
  | content, i, j, p :: ps => insert_int_go (pyInsert content p (i.testBit j)) i (j + 1) ps

/-- `BitCollection.insert_int(i, positions)`: for `j, position` in
`enumerate(positions)` insert bit `j` of `i` (`(i & (1 << j)) >> j`, least
significant first) at index `position` of the content as it currently stands. -/
def insert_int (content : List Bool) (i : Nat) (ps : List Nat) : List Bool :=
  insert_int_go content i 0 ps

/-- The bits popped by the extraction loops, in draw order, together with the
remaining buffer: both `extract_bitarray` and `extract_int` pop
`positions[j]` for `j = 0, 1, ...` from the shrinking buffer. -/
def drawBits : List Bool → List Nat → List Bool × List Bool
  | content, [] => (content, [])
  | content, p :: ps =>
      let pb := pyPopBit content p
      let rest := drawBits pb.2 ps
      (rest.1, pb.1 :: rest.2)

/-- `BitCollection.extract_bitarray(positions)`: appends each popped bit in
draw order, then reverses the accumulated bits.  Returns (remaining content,
extracted bits). -/
def extract_bitarray (content : List Bool) (ps : List Nat) : List Bool × List Bool :=
  let d := drawBits content ps
  (d.1, d.2.reverse)

def extract_int_go : List Bool → Nat → Nat → List Nat → List Bool × Nat
  | content, output, _, [] => (content, output)
  | content, output, j, p :: ps =>
      let pb := pyPopBit content p
      extract_int_go pb.2 (output ||| (pb.1.toNat <<< j)) (j + 1) ps

/-- `BitCollection.extract_int(positions)`: pops each position in order and
accumulates `output |= bit << j`.  Returns (remaining content, integer). -/
def extract_int (content : List Bool) (ps : List Nat) : List Bool × Nat :=
  extract_int_go content 0 0 ps

/-- Every position is in range of the buffer as it stands when it is used (the
precondition under which Python's `pop` does not raise IndexError). -/
def validPositions : List Bool → List Nat → Prop
  | _, [] => True
  | content, p :: ps => p < content.length ∧ validPositions (content.eraseIdx p) ps

instance validPositions.dec : (c : List Bool) → (ps : List Nat) → Decidable (validPositions c ps)
  | _, [] => .isTrue trivial
  | c, p :: ps =>
      have : Decidable (validPositions (c.eraseIdx p) ps) := validPositions.dec _ ps
      inferInstanceAs (Decidable (_ ∧ _))

/-- The value of a draw-order bit list when the bit drawn at step `j` receives
significance `j` (the step-0 bit is least significant). -/
def lsbValue : List Bool → Nat
  | [] => 0
  | b :: bs => b.toNat + 2 * lsbValue bs

def claimed_extract_int_go (n : Nat) : List Bool → Nat → Nat → List Nat → List Bool × Nat
  | content, output, _, [] => (content, output)
  | content, output, j, p :: ps =>
      let pb := pyPopBit content p
      claimed_extract_int_go n pb.2 (output ||| (pb.1.toNat <<< (n - 1 - j))) (j + 1) ps

/-- The claim's reading of `extract_int`, written out for comparison with the source's
`extract_int` above: the bit popped at step `j` is claimed to receive significance `n - 1 - j`
(`output |= bit << (n-1-j)`), where `n` is the number of positions. -/
def claimed_extract_int (content : List Bool) (ps : List Nat) : List Bool × Nat :=
  claimed_extract_int_go ps.length content 0 0 ps

namespace SHA256

/-! A byte-level SHA-256, used by `SecretKeyCollection.chunk` (`hashlib.sha256`).  Messages and
digests are lists of bytes (`Nat` below 256); words are `Nat` reduced mod `2^32`. -/

def rotr (n x : Nat) : Nat := ((x >>> n) ||| (x <<< (32 - n))) &&& 0xFFFFFFFF

/-- The 64 standard SHA-256 round constants (fractional cube-root parts of the first 64
primes), written in decimal. -/
def K : List Nat :=
  [1116352408, 1899447441, 3049323471, 3921009573, 961987163,
   1508970993, 2453635748, 2870763221, 3624381080, 310598401,
   607225278, 1426881987, 1925078388, 2162078206, 2614888103,
   3248222580, 3835390401, 4022224774, 264347078, 604807628,
   770255983, 1249150122, 1555081692, 1996064986, 2554220882,
   2821834349, 2952996808, 3210313671, 3336571891, 3584528711,
   113926993, 338241895, 666307205, 773529912, 1294757372,
   1396182291, 1695183700, 1986661051, 2177026350, 2456956037,
   2730485921, 2820302411, 3259730800, 3345764771, 3516065817,
   3600352804, 4094571909, 275423344, 430227734, 506948616,
   659060556, 883997877, 958139571, 1322822218, 1537002063,
   1747873779, 1955562222, 2024104815, 2227730452, 2361852424,
   2428436474, 2756734187, 3204031479, 3329325298]

/-- The eight standard SHA-256 initial hash words (fractional square-root parts of the first
eight primes), written in decimal. -/
def initialHash : List Nat :=
  [1779033703, 3144134277, 1013904242, 2773480762, 1359893119,
   2600822924, 528734635, 1541459225]

/-- Big-endian 8-byte encoding of the 64-bit message bit length. -/
def lenBytes8 (n : Nat) : List Nat :=
  [(n >>> 56) &&& 255, (n >>> 48) &&& 255, (n >>> 40) &&& 255, (n >>> 32) &&& 255,
   (n >>> 24) &&& 255, (n >>> 16) &&& 255, (n >>> 8) &&& 255, n &&& 255]

/-- SHA-256 padding: append `0x80`, zero bytes to reach 56 mod 64, then the bit length. -/
def pad (msg : List Nat) : List Nat :=
  msg ++ 0x80 :: List.replicate ((119 - msg.length % 64) % 64) 0 ++ lenBytes8 (8 * msg.length)

/-- Big-endian 32-bit words from a list of bytes. -/
def toWords : List Nat → List Nat
  | a :: b :: c :: d :: rest => ((a <<< 24) ||| (b <<< 16) ||| (c <<< 8) ||| d) :: toWords rest
  | _ => []

def smallSigma0 (x : Nat) : Nat := rotr 7 x ^^^ rotr 18 x ^^^ (x >>> 3)
def smallSigma1 (x : Nat) : Nat := rotr 17 x ^^^ rotr 19 x ^^^ (x >>> 10)
def bigSigma0 (x : Nat) : Nat := rotr 2 x ^^^ rotr 13 x ^^^ rotr 22 x
def bigSigma1 (x : Nat) : Nat := rotr 6 x ^^^ rotr 11 x ^^^ rotr 25 x
def ch (x y z : Nat) : Nat := (x &&& y) ^^^ ((x ^^^ 0xFFFFFFFF) &&& z)
def maj (x y z : Nat) : Nat := (x &&& y) ^^^ (x &&& z) ^^^ (y &&& z)

/-- Message-schedule extension: grow the 16 block words to 64. -/
def scheduleGo (w : List Nat) : Nat → List Nat
  | 0 => w
  | fuel + 1 =>
      let t := w.length
      scheduleGo (w ++ [(smallSigma1 (w.getD (t - 2) 0) + w.getD (t - 7) 0 +
        smallSigma0 (w.getD (t - 15) 0) + w.getD (t - 16) 0) &&& 0xFFFFFFFF]) fuel

def schedule (block : List Nat) : List Nat := scheduleGo (toWords block) 48

def roundStep (st : List Nat) (kw : Nat × Nat) : List Nat :=
  let a := st.getD 0 0
  let b := st.getD 1 0
  let c := st.getD 2 0
  let d := st.getD 3 0
  let e := st.getD 4 0
  let f := st.getD 5 0
  let g := st.getD 6 0
  let h := st.getD 7 0
  let t1 := (h + bigSigma1 e + ch e f g + kw.1 + kw.2) &&& 0xFFFFFFFF
  let t2 := (bigSigma0 a + maj a b c) &&& 0xFFFFFFFF
  [(t1 + t2) &&& 0xFFFFFFFF, a, b, c, (d + t1) &&& 0xFFFFFFFF, e, f, g]

def processBlock (hs : List Nat) (block : List Nat) : List Nat :=
  let st := (K.zip (schedule block)).foldl roundStep hs
  (hs.zip st).map (fun p => (p.1 + p.2) &&& 0xFFFFFFFF)

def processBlocksGo (hs : List Nat) (l : List Nat) : Nat → List Nat
  | 0 => hs
  | fuel + 1 =>
      if l = [] then hs
      else processBlocksGo (processBlock hs (l.take 64)) (l.drop 64) fuel

/-- Fold the compression function over the 64-byte blocks of the padded message (the fuel
argument only bounds the recursion; one unit per block always suffices). -/
def processBlocks (hs : List Nat) (l : List Nat) : List Nat := processBlocksGo hs l l.length

/-- The eight 32-bit hash words of the SHA-256 digest of a byte message. -/
def sha256words (msg : List Nat) : List Nat := processBlocks initialHash (pad msg)

/-- `int.from_bytes(sha256(g).digest()[0:4], byteorder='big')`: the first four digest bytes as
a big-endian 32-bit integer — exactly the first hash word. -/
def sha256first4 (msg : List Nat) : Nat := (sha256words msg).getD 0 0

end SHA256

/-- Loop body of `SecretKeyCollection.__init__` for one character code `b`:
`t = (int(b) - 32) & 0x5F`, then `int_to_bitarray(t, 6)` — the six-bit group contributed by
that character, most significant bit first.  Secret keys are ASCII 0x20–0x7F, so the `Nat`
subtraction agrees with Python's. -/
def charSixBits (b : Nat) : List Bool := int_to_bitarray ((b - 32) &&& 0x5F) 6

/-- `bits = int_to_bitarray(t, 6) + bits`: each character's six-bit group is PREPENDED. -/
def secretKeyBits (codes : List Nat) : List Bool :=
  codes.foldl (fun bits b => charSixBits b ++ bits) []

/-- `SecretKeyCollection.__init__`: the per-character bits, zero-padded at the front (the most
significant side) to a byte boundary. -/
def secretKeyContent (codes : List Nat) : List Bool :=
  let bits := secretKeyBits codes
  if bits.length % 8 = 0 then bits else List.replicate (8 - bits.length % 8) false ++ bits

/-- `bitarray.tobytes()`: consecutive groups of 8 bits, most significant bit first; a final
partial group is zero-padded at its least-significant end (the secret-key content is always
byte-aligned, so the padding branch is never exercised there). -/
def bitsToBytesGo (l : List Bool) : Nat → List Nat
  | 0 => []
  | fuel + 1 =>
      if l = [] then []
      else bitarray_to_int (l.take 8 ++ List.replicate (8 - (l.take 8).length) false)
        :: bitsToBytesGo (l.drop 8) fuel

/-- `bitarray.tobytes()` driver (the fuel argument only bounds the recursion; one unit per
byte always suffices). -/
def bitsToBytes (l : List Bool) : List Nat := bitsToBytesGo l l.length

/-- The chunk groups of `SecretKeyCollection.chunk(n)`: `n` successive groups of `chunkSize`
bytes taken from the byte iterator, a group coming up short (possibly empty) once the bytes
are exhausted. -/
def chunkGroups (bytes : List Nat) (chunkSize : Nat) : Nat → List (List Nat)
  | 0 => []
  | a + 1 => bytes.take chunkSize :: chunkGroups (bytes.drop chunkSize) chunkSize a

/-- `chunk_size` in `SecretKeyCollection.chunk(n)`: `total_bytes // n`, incremented by one when
the division is inexact (`if total_bytes % n: chunk_size += 1`). -/
def chunkSize (codes : List Nat) (n : Nat) : Nat :=
  let totalBytes := (bitsToBytes (secretKeyContent codes)).length
  totalBytes / n + (if totalBytes % n ≠ 0 then 1 else 0)

/-- `SecretKeyCollection.chunk(n)`: each of the `n` groups of `chunk_size` bytes is hashed with
SHA-256 and the first 4 digest bytes are yielded as a big-endian 32-bit integer.
(`n = 0` would be a Python ZeroDivisionError; the claims require `n ≥ 1`.) -/
def chunkList (codes : List Nat) (n : Nat) : List Nat :=
  (chunkGroups (bitsToBytes (secretKeyContent codes)) (chunkSize codes n) n).map
    SHA256.sha256first4

/-- The per-character 6-bit value asserted by the claim: `(c - 0x20) mod 64`, stated for
comparison with the source's `charSixBits`. -/
def claimed_charSixBits (c : Nat) : List Bool := int_to_bitarray ((c - 32) % 64) 6

namespace MT19937

/-- `_int32(x)`: the 32 least significant bits. -/
def int32 (x : Nat) : Nat := x &&& 0xFFFFFFFF

/-- Generator state: the 624-word array and the extraction index. -/
structure State where
  mt : List Nat
  index : Nat
deriving DecidableEq

def initGo (prev i : Nat) : Nat → List Nat
  | 0 => []
  | fuel + 1 =>
      let v := int32 (1812433253 * (prev ^^^ (prev >>> 30)) + i)
      v :: initGo v (i + 1) fuel

/-- `MT19937.__init__(seed)`: `mt[0] = seed` (stored unreduced), then
`mt[i] = _int32(1812433253 * (mt[i-1] ^ (mt[i-1] >> 30)) + i)` for `i = 1 .. 623`;
`index = 624`, so the first extraction twists. -/
def initState (seed : Nat) : State := ⟨seed :: initGo seed 1 623, 624⟩

/-- One iteration of the twist loop at index `i`, updating `mt` IN PLACE exactly as the
Python loop does (later iterations read values already rewritten by earlier ones). -/
def twistStep (mt : List Nat) (i : Nat) : List Nat :=
  let y := int32 ((mt.getD i 0 &&& 0x80000000) + (mt.getD ((i + 1) % 624) 0 &&& 0x7fffffff))
  let v := (mt.getD ((i + 397) % 624) 0) ^^^ (y >>> 1)
  let v := if y % 2 ≠ 0 then v ^^^ 0x9908b0df else v
  mt.set i v

def twistGo (mt : List Nat) (i : Nat) : Nat → List Nat
  | 0 => mt
  | fuel + 1 => twistGo (twistStep mt i) (i + 1) fuel

/-- `MT19937.twist()`: the in-place loop over all 624 indices. -/
def twist (mt : List Nat) : List Nat := twistGo mt 0 624

/-- The tempering transform of `extract_number` (Python precedence: `^` binds loosest,
`<<`/`>>` bind tighter than `&`). -/
def temper (y0 : Nat) : Nat :=
  let y1 := y0 ^^^ (y0 >>> 11)
  let y2 := y1 ^^^ ((y1 <<< 7) &&& 2636928640)
  let y3 := y2 ^^^ ((y2 <<< 15) &&& 4022730752)
  let y4 := y3 ^^^ (y3 >>> 18)
  int32 y4

/-- `MT19937.extract_number()`: twist when 624 numbers have been consumed, temper
`mt[index]`, and advance the index. -/
def extractNumber (s : State) : Nat × State :=
  let s' := if s.index ≥ 624 then State.mk (twist s.mt) 0 else s
  (temper (s'.mt.getD s'.index 0), ⟨s'.mt, s'.index + 1⟩)

/-- `MT19937.rand_int(e1, e2)`: scale a raw output into `[low, high]` and clamp:
`min(floor(r * (high - low + 1) / 0xFFFFFFFF) + low, high)`.  Python computes the scaling
in binary64 floating point (`mult = diff / 0xFFFFFFFF`); this model computes the same
quantity in exact arithmetic, which agrees with the float computation whenever
`0xFFFFFFFF` does not divide `r * diff` (the concrete inputs used below are all of
that kind). -/
def randInt (s : State) (e1 e2 : Nat) : Nat × State :=
  let low := min e1 e2
  let high := max e1 e2
  let diff := high - low + 1
  let r := extractNumber s
  (min (low + r.1 * diff / 0xFFFFFFFF) high, r.2)

end MT19937

def generateGo (s : MT19937.State) (maxPosition : Nat) : Nat → List Nat
  | 0 => []
  | bits + 1 =>
      let p := MT19937.randInt s 0 maxPosition
      p.1 :: generateGo p.2 maxPosition bits

/-- `Token.generate_bit_positions(seed, max_position, bits)`: seed a fresh `MT19937(seed)`
and draw `bits` integers with `r.rand_int(0, max_position)` — the same `max_position`
bound for every draw. -/
def generate_bit_positions (seed maxPosition bits : Nat) : List Nat :=
  generateGo (MT19937.initState seed) maxPosition bits

def mtNumbersGo (s : MT19937.State) : Nat → List Nat
  | 0 => []
  | k + 1 =>
      let r := MT19937.extractNumber s
      r.1 :: mtNumbersGo r.2 k

/-- The first `k` raw 32-bit outputs of a generator freshly seeded with `seed`. -/
def mtNumbers (seed k : Nat) : List Nat := mtNumbersGo (MT19937.initState seed) k

def claimed_generateGo (s : MT19937.State) (mp i : Nat) : Nat → List Nat
  | 0 => []
  | bits + 1 =>
      let p := MT19937.randInt s 0 (mp + i)
      p.1 :: claimed_generateGo p.2 mp (i + 1) bits

/-- The claim's version of `generate_bit_positions`, stated for comparison with the source's
function: the `i`-th draw is scaled into the GROWING closed interval `[0, max_position + i]`
and clamped to `max_position + i`. -/
def claimed_generate_bit_positions (seed mp bits : Nat) : List Nat :=
  claimed_generateGo (MT19937.initState seed) mp 0 bits

/-- ASCII codes of the secret key `"music makes me lose control"`. -/
def musicKey : List Nat :=
  [109, 117, 115, 105, 99, 32, 109, 97, 107, 101, 115, 32, 109, 101, 32, 108, 111, 115, 101,
   32, 99, 111, 110, 116, 114, 111, 108]

/-- Minimal big-endian byte representation of a natural number (the byte representation of
`raw_seed` referred to by the spec; `natBEBytes 0 = []`). -/
def natBEBytesGo (n : Nat) : Nat → List Nat
  | 0 => []
  | fuel + 1 => if n = 0 then [] else natBEBytesGo (n / 256) fuel ++ [n % 256]

def natBEBytes (n : Nat) : List Nat := natBEBytesGo n n

/-- Modelled from the spec: `hash_seed` appears nowhere in the source (only
`generate_bit_positions` and `MT19937` exist); §4.3 describes it as concatenating the byte
representation of `raw_seed` with the secret key's ASCII bytes, taking SHA-256, and returning
the first 4 bytes as a big-endian unsigned 32-bit integer. -/
def spec_hash_seed (rawSeed : Nat) (secretKey : List Nat) : Nat :=
  SHA256.sha256first4 (natBEBytes rawSeed ++ secretKey)

/-- Python runtime exceptions raised by the token engine paths modelled below. -/
inductive PyError
  | nameError
  | configError
  | valueError
deriving DecidableEq

instance instDecEqExcept {ε α : Type} [DecidableEq ε] [DecidableEq α] :
    DecidableEq (Except ε α) := fun a b => by
  cases a <;> cases b
  case error.error e f =>
    exact if h : e = f then .isTrue (by rw [h]) else .isFalse (by simp [h])
  case error.ok => exact .isFalse (by simp)
  case ok.error => exact .isFalse (by simp)
  case ok.ok x y =>
    exact if h : x = y then .isTrue (by rw [h]) else .isFalse (by simp [h])

/-- The fields of a validated `TokenLayer` that `encode`/`decode` read: the bit width and the
optional explicit positions list (`TokenLayer.__init__` stores `None` unless a nonempty
list is supplied). -/
structure LayerCfg where
  bits : Nat
  positions : Option (List Nat)
deriving DecidableEq

/-- Python truthiness test `if not layer.positions`. -/
def layerNoPositions (l : LayerCfg) : Bool :=
  match l.positions with
  | none => true
  | some ps => ps.isEmpty

/-- The `Token` attributes read by `encode`, `decode` and `public_token_bit_length`.
`random_bits` is set to 512 by `__init__` and — decisive for C2 — never reassigned by
`config()`, which stores the configured width in `stored_token_bits` instead;
`seed_bits` keeps its `__init__` default 4 unless `config()` receives a *truthy*
(nonzero) value, because of `if seed_bits:`. -/
structure TokenCfg where
  secretKey : List Nat
  randomBits : Nat
  seedBits : Nat
  storedTokenBits : Nat
  layers : List LayerCfg

/-- `bitarray.frombytes`: each byte contributes its 8 bits, most significant first. -/
def bytesToBits (bytes : List Nat) : List Bool :=
  (bytes.map (fun b => int_to_bitarray b 8)).flatten

/-- `Token.public_token_bit_length(with_padding)`: `self.random_bits` plus, per layer, the
layer's bits plus `self.seed_bits` when the layer has no explicit positions; with padding the
total is rounded up to a multiple of 6 and then 6 more is added. -/
def public_token_bit_length (cfg : TokenCfg) (withPadding : Bool) : Nat :=
  let totalBits := cfg.randomBits +
    (cfg.layers.map (fun l => l.bits + (if layerNoPositions l then cfg.seedBits else 0))).sum
  if withPadding then
    (if totalBits % 6 ≠ 0 then totalBits + (6 - totalBits % 6) else totalBits) + 6
  else totalBits

/-- `Token.encode(*args)` on a configured token object.  `urandom` stands for the
`os.urandom(self.stored_token_bits // 8)` bytes (the caller passes exactly that many).
The encode body: generate the stored token, copy it into the public token, check the
argument count, return immediately with no layers; otherwise count the layers needing
seeds and draw the chunk seed sources — and then the first loop iteration executes
`layer_positions = layer.positions; if not positions:` (line 386), where `positions` is a
name defined nowhere in `encode`'s scope, so Python raises NameError for EVERY layer,
explicit positions or not. -/
def token_encode (cfg : TokenCfg) (args : List Nat) (urandom : List Nat) :
    Except PyError (List Bool × List Bool) :=
  let storedToken := if cfg.storedTokenBits > 0 then bytesToBits urandom else []
  let publicToken := storedToken
  if args.length ≠ cfg.layers.length then .error .configError
  else if cfg.layers.isEmpty then .ok (storedToken, publicToken)
  else
    let needSeeds := (cfg.layers.filter layerNoPositions).length
    let _seedSources := (if needSeeds > 0 then chunkList cfg.secretKey needSeeds else []).reverse
    .error .nameError

/-- Python `int.bit_length()`. -/
def pyBitLengthNat (n : Nat) : Nat := if n = 0 then 0 else n.log2 + 1

/-- Characters accepted by `decode_b64`'s regex `^[a-zA-Z0-9\-_]+$`. -/
def b64CharOk (c : Nat) : Bool :=
  (65 ≤ c && c ≤ 90) || (97 ≤ c && c ≤ 122) || (48 ≤ c && c ≤ 57) || c == 45 || c == 95

/-- Sextet value of a URL-safe base64 character after the `'-'→'+'`, `'_'→'/'` replacement
performed by `b64_to_int(url_safe=True)`. -/
def sextet (c : Nat) : Nat :=
  if 65 ≤ c ∧ c ≤ 90 then c - 65
  else if 97 ≤ c ∧ c ≤ 122 then c - 71
  else if 48 ≤ c ∧ c ≤ 57 then c + 4
  else if c = 45 then 62
  else 63

/-- Bytes decoded by CPython's lenient `base64.b64decode` from data characters (the strings
reaching it here contain no `'='`, and the `'=='` appended by `b64_to_int` is surplus padding
the lenient decoder ignores): full quads give 3 bytes, a trailing pair 1 byte, a trailing
triple 2 bytes; a remainder of one data character raises `binascii.Error`, which
`b64_to_int`'s caller catches (modelled as `none`). -/
def b64DecodeBytes : List Nat → Option (List Nat)
  | [] => some []
  | [_] => none
  | [a, b] => some [(sextet a <<< 2) ||| (sextet b >>> 4)]
  | [a, b, c] => some [(sextet a <<< 2) ||| (sextet b >>> 4),
                       ((sextet b &&& 15) <<< 4) ||| (sextet c >>> 2)]
  | a :: b :: c :: d :: rest =>
      (b64DecodeBytes rest).map
        (fun tail => ((sextet a <<< 2) ||| (sextet b >>> 4)) ::
          (((sextet b &&& 15) <<< 4) ||| (sextet c >>> 2)) ::
          (((sextet c &&& 3) <<< 6) ||| sextet d) :: tail)

/-- `utils.unpack_bigint(ba)`: little-endian — byte `i` contributes `value << (8*i)`. -/
def unpack_bigint : List Nat → Nat
  | [] => 0
  | b :: rest => b + 256 * unpack_bigint rest

/-- `utils.b64_to_int(b64, url_safe=True)` on strings that passed `decode_b64`'s regex. -/
def b64_to_int (token : List Nat) : Option Nat :=
  (b64DecodeBytes token).map unpack_bigint

/-- `Token.decode_b64(token, bit_length)`: `False` (here `none`) for an empty token, for
characters outside `[a-zA-Z0-9\-_]`, for a base64 decoding error, or when the decoded
integer's bit length differs from the expected one; otherwise the decoded integer. -/
def decode_b64 (token : List Nat) (bitLength : Nat) : Option Nat :=
  if token.isEmpty then none
  else if ¬ token.all b64CharOk then none
  else
    match b64_to_int token with
    | none => none
    | some v => if bitLength ≠ 0 ∧ pyBitLengthNat v ≠ bitLength then none else some v

/-- `Token.decode(token)` (no explicit `data_type`, none configured).  When `decode_b64`
reports failure — and also when the decoded integer is 0, since `if not working_token:`
treats 0 as failure — line 456 executes `return none`, and `none` is an undefined Python
name: decode raises NameError instead of returning the documented `False`.  With no layers
the masked stored token is returned; with layers present, line 484 reads the undefined name
`settings` inside the seed loop, again raising NameError. -/
def token_decode (cfg : TokenCfg) (token : List Nat) : Except PyError Nat :=
  let lengthWithPad := public_token_bit_length cfg true
  let workingLength := public_token_bit_length cfg false
  match decode_b64 token lengthWithPad with
  | none => .error .nameError
  | some workingToken =>
      if workingToken = 0 then .error .nameError
      else if cfg.layers.isEmpty then .ok (workingToken &&& ((1 <<< workingLength) - 1))
      else .error .nameError

/-- `Token` state after `__init__` + `config({...,'random_bits': 123, 'seed_bits': 0})` with
no layers (the configuration of the repository's own test suite): `config()` stores 123 in
`stored_token_bits` but never reassigns `self.random_bits` (left at the `__init__` default
512), and `if seed_bits:` is False for 0, so `seed_bits` stays 4. -/
def cfg123 : TokenCfg :=
  { secretKey := musicKey, randomBits := 512, seedBits := 4, storedTokenBits := 123,
    layers := [] }

/-- `Token` state intended by the claim's concrete scenario: secret key
`"music makes me lose control"`, private-token width 32, seed-bit width 4, one integer layer
of width 8.  (Even reaching this state requires stepping over two crashes the model elides:
the import of `token_cloak.tokens` fails because `utils.chunk_string` does not exist, and
`Token.__init__` stores a dict in `self.config` and then calls it, a TypeError; likewise
`TokenLayer.__init__` reads the undefined names `bits` and `length`.) -/
def cfgMusic : TokenCfg :=
  { secretKey := musicKey, randomBits := 512, seedBits := 4, storedTokenBits := 32,
    layers := [{ bits := 8, positions := none }] }

/-! Theorems: general lemmas first, then the claim theorems, their witnesses and
counterexamples. -/

/-- Sanity: the source's expression `(i & (1 << j)) >> j` agrees with `Nat.testBit`. -/
theorem pyBit_eq_source (i j : Nat) : ((i &&& (1 <<< j)) >>> j) = (pyBit i j).toNat := by
  rw [pyBit, Nat.shiftLeft_eq, one_mul, Nat.and_two_pow, Nat.shiftRight_eq_div_pow,
    Nat.mul_div_cancel _ (Nat.pos_pow_of_pos j (by norm_num))]

/-! Basic lemmas about the bit conversions. -/

theorem int_to_bitarray_succ (i n : Nat) :
    int_to_bitarray i (n + 1) = i.testBit n :: int_to_bitarray i n := by
  simp [int_to_bitarray, List.range_succ]

theorem int_to_bitarray_length (i n : Nat) : (int_to_bitarray i n).length = n := by
  induction n with
  | zero => rfl
  | succ n ih => rw [int_to_bitarray_succ]; simp [ih]

theorem int_to_bitarray_eq_reverse_map (i n : Nat) :
    int_to_bitarray i n = ((List.range n).map (i.testBit ·)).reverse := by
  induction n with
  | zero => rfl
  | succ n ih => rw [int_to_bitarray_succ, List.range_succ]; simp [ih]

theorem bitarray_to_int_foldl (l : List Bool) :
    ∀ a : Nat, l.foldl (fun acc bit => 2 * acc + bit.toNat) a = a * 2 ^ l.length + bitarray_to_int l := by
  induction l with
  | nil => intro a; simp [bitarray_to_int]
  | cons b t ih =>
      intro a
      show t.foldl _ (2 * a + b.toNat) = _
      rw [ih (2 * a + b.toNat)]
      have hb : bitarray_to_int (b :: t) = b.toNat * 2 ^ t.length + bitarray_to_int t := by
        show t.foldl _ (2 * 0 + b.toNat) = _
        rw [ih (2 * 0 + b.toNat)]
        ring_nf
      rw [hb]
      simp [List.length_cons]
      ring

theorem bitarray_to_int_cons (b : Bool) (t : List Bool) :
    bitarray_to_int (b :: t) = b.toNat * 2 ^ t.length + bitarray_to_int t := by
  show t.foldl _ (2 * 0 + b.toNat) = _
  rw [bitarray_to_int_foldl t (2 * 0 + b.toNat)]
  ring_nf

theorem bitarray_to_int_append_bit (l : List Bool) (b : Bool) :
    bitarray_to_int (l ++ [b]) = 2 * bitarray_to_int l + b.toNat := by
  simp [bitarray_to_int, List.foldl_append]

theorem testBit_toNat (i n : Nat) : (i.testBit n).toNat = i / 2 ^ n % 2 := by
  have h := Nat.testBit_to_div_mod (x := i) (i := n)
  rcases hb : i.testBit n with _ | _ <;> rw [hb] at h <;> simp at h ⊢ <;> omega

theorem bitarray_to_int_int_to_bitarray (i n : Nat) :
    bitarray_to_int (int_to_bitarray i n) = i % 2 ^ n := by
  induction n with
  | zero => simp [int_to_bitarray, bitarray_to_int, Nat.mod_one]
  | succ n ih =>
      rw [int_to_bitarray_succ, bitarray_to_int_cons, int_to_bitarray_length, ih, testBit_toNat,
        Nat.mod_pow_succ, Nat.mul_comm, Nat.add_comm]

theorem lor_toNat_shift_eq_add {a j : Nat} (h : a < 2 ^ j) (b : Bool) :
    a ||| (b.toNat <<< j) = a + 2 ^ j * b.toNat := by
  cases b
  · simp
  · show a ||| (1 <<< j) = a + 2 ^ j * 1
    rw [Nat.shiftLeft_eq, one_mul, Nat.mul_one]
    apply Nat.eq_of_testBit_eq
    intro k
    rw [Nat.testBit_or]
    have h2 : a + 2 ^ j = 2 ^ j * 1 + a := by ring
    rw [h2, Nat.testBit_mul_pow_two_add 1 h k]
    rcases Nat.lt_trichotomy k j with hk | hk | hk
    · simp [hk, Nat.testBit_two_pow_of_ne (by omega : j ≠ k)]
    · subst hk
      simp [Nat.testBit_lt_two_pow h, Nat.testBit_two_pow_self]
    · have hk' : ¬ (k < j) := by omega
      have ha : a.testBit k = false :=
        Nat.testBit_lt_two_pow (lt_of_lt_of_le h (Nat.pow_le_pow_right (by norm_num) (by omega)))
      have h1 : Nat.testBit 1 (k - j) = false :=
        Nat.testBit_lt_two_pow (by
          have : (2:Nat) ^ 1 ≤ 2 ^ (k - j) := Nat.pow_le_pow_right (by norm_num) (by omega)
          omega)
      simp [hk', ha, h1, Nat.testBit_two_pow_of_ne (by omega : j ≠ k)]

theorem extract_int_go_eq (ps : List Nat) : ∀ (c : List Bool) (out j : Nat), out < 2 ^ j →
    extract_int_go c out j ps = ((drawBits c ps).1, out + 2 ^ j * lsbValue (drawBits c ps).2) := by
  induction ps with
  | nil => intro c out j _; simp [extract_int_go, drawBits, lsbValue]
  | cons p ps ih =>
      intro c out j h
      show extract_int_go (pyPopBit c p).2 (out ||| ((pyPopBit c p).1.toNat <<< j)) (j + 1) ps = _
      rw [lor_toNat_shift_eq_add h]
      have hlt : out + 2 ^ j * (pyPopBit c p).1.toNat < 2 ^ (j + 1) := by
        rcases (pyPopBit c p).1 with _ | _ <;> simp [pow_succ] <;> omega
      rw [ih _ _ _ hlt]
      show _ = ((drawBits (pyPopBit c p).2 ps).1,
        out + 2 ^ j * lsbValue ((pyPopBit c p).1 :: (drawBits (pyPopBit c p).2 ps).2))
      refine Prod.ext rfl ?_
      show out + 2 ^ j * _ + 2 ^ (j + 1) * _ = _
      simp only [lsbValue]
      ring

theorem extract_int_eq (c : List Bool) (ps : List Nat) :
    extract_int c ps = ((drawBits c ps).1, lsbValue (drawBits c ps).2) := by
  have h := extract_int_go_eq ps c 0 0 (by norm_num)
  simpa [extract_int] using h

theorem bitarray_to_int_reverse (l : List Bool) : bitarray_to_int l.reverse = lsbValue l := by
  induction l with
  | nil => rfl
  | cons b t ih =>
      rw [List.reverse_cons, bitarray_to_int_append_bit, ih]
      simp [lsbValue]
      ring

/-- C4 (amended): for every buffer and valid positions list, extraction pops `positions[j]` for
`j = 0, 1, ...` in order from the shrinking buffer and reassembles the collected bits in reverse
draw order, so the bit popped at step `j` receives significance `j` (NOT `n-1-j`) in the
reconstructed value; `extract_bitarray` (hence `extract`) and `extract_int` agree on every
input: they leave the same remaining buffer, and the most-significant-bit-first value of the
extracted bitarray equals the integer `extract_int` reconstructs. -/
theorem extract_correct (c : List Bool) (ps : List Nat) (hv : validPositions c ps) :
    (extract_bitarray c ps).1 = (extract_int c ps).1 ∧
    (extract_bitarray c ps).2 = (drawBits c ps).2.reverse ∧
    (extract_int c ps).2 = lsbValue (drawBits c ps).2 ∧
    (ps ≠ [] → bitarray_to_int (extract_bitarray c ps).2 = (extract_int c ps).2) := by
  refine ⟨?_, rfl, ?_, fun _ => ?_⟩
  · rw [extract_int_eq]; rfl
  · rw [extract_int_eq]
  · show bitarray_to_int (drawBits c ps).2.reverse = _
    rw [bitarray_to_int_reverse, extract_int_eq]

/-- Witness for `extract_correct` on the concrete buffer `[1,0,1]` with positions `[1,0]`. -/
theorem extract_correct_witness :
    (extract_bitarray [true, false, true] [1, 0]).1 = (extract_int [true, false, true] [1, 0]).1 ∧
    (extract_bitarray [true, false, true] [1, 0]).2
      = (drawBits [true, false, true] [1, 0]).2.reverse ∧
    (extract_int [true, false, true] [1, 0]).2 = lsbValue (drawBits [true, false, true] [1, 0]).2 ∧
    ([1, 0] ≠ ([] : List Nat) →
      bitarray_to_int (extract_bitarray [true, false, true] [1, 0]).2
        = (extract_int [true, false, true] [1, 0]).2) :=
  extract_correct [true, false, true] [1, 0] (by decide)

/-- C4 counterexample: on the buffer `[1,0]` with positions `[0,0]` the source's `extract_int`
returns 1 (step-0 bit at significance 0), while the claim's `n-1-j` significance rule would
return 2; the claim as stated is false of the code. -/
theorem c4_counterexample :
    extract_int [true, false] [0, 0] = ([], 1) ∧
    claimed_extract_int [true, false] [0, 0] = ([], 2) ∧
    (extract_int [true, false] [0, 0]).2 ≠ (claimed_extract_int [true, false] [0, 0]).2 := by
  decide

theorem insert_int_go_eq_insert_bitarray (ps : List Nat) : ∀ (c : List Bool) (v j : Nat),
    insert_int_go c v j ps
      = insert_bitarray c ((List.range ps.length).map (fun k => v.testBit (j + k))) ps := by
  induction ps with
  | nil => intro c v j; rfl
  | cons p ps ih =>
      intro c v j
      show insert_int_go (pyInsert c p (v.testBit j)) v (j + 1) ps = _
      rw [ih]
      have hmap : (List.range (p :: ps).length).map (fun k => v.testBit (j + k))
          = v.testBit j :: (List.range ps.length).map (fun k => v.testBit (j + 1 + k)) := by
        simp only [List.length_cons, List.range_succ_eq_map, List.map_cons, List.map_map,
          Nat.add_zero]
        refine congrArg (v.testBit j :: ·) ?_
        apply List.map_congr_left
        intro a _
        show v.testBit (j + (a + 1)) = v.testBit (j + 1 + a)
        congr 1
        omega
      rw [hmap]
      rfl

/-- C3 (amended): `insert_int(v, positions)` inserts bit `j` of `v` (least significant bit
first) at index `positions[j]` of the sequence as it currently stands; but
`insert(from_int(v, n), positions)` consumes the most-significant-bit-first bitarray
`int_to_bitarray v n` in index order, so the two mutate the buffer identically only when
the bitarray is REVERSED: `insert_int c v ps = insert_bitarray c ((int_to_bitarray v n).reverse) ps`
(with `n = len(positions)`), not with `int_to_bitarray v n` itself as the claim states. -/
theorem insert_int_eq_insert_bitarray_reverse (c : List Bool) (v n : Nat) (ps : List Nat)
    (h : ps.length = n) :
    insert_int c v ps = insert_bitarray c ((int_to_bitarray v n).reverse) ps := by
  rw [int_to_bitarray_eq_reverse_map, List.reverse_reverse, insert_int,
    insert_int_go_eq_insert_bitarray, ← h]
  refine congrArg (fun l => insert_bitarray c l ps) ?_
  apply List.map_congr_left
  intro a _
  show v.testBit (0 + a) = v.testBit a
  rw [Nat.zero_add]

/-- Witness for `insert_int_eq_insert_bitarray_reverse` at `v = 6`, `n = 3`, positions `[0,1,1]`. -/
theorem insert_int_eq_insert_bitarray_reverse_witness :
    insert_int [] 6 [0, 1, 1] = insert_bitarray [] ((int_to_bitarray 6 3).reverse) [0, 1, 1] :=
  insert_int_eq_insert_bitarray_reverse [] 6 3 [0, 1, 1] (by decide)

/-- C3 counterexample: for value 1 in 2 bits at positions `[0,1]` on an empty buffer,
`insert_int` (LSB-first) yields `[1,0]` while `insert(from_int(1,2), ...)` (which walks the
MSB-first bitarray `[0,1]` in index order) yields `[0,1]`; the two are NOT identical, refuting
the claim that they mutate the buffer identically. -/
theorem c3_counterexample :
    insert_int [] 1 [0, 1] = [true, false] ∧
    insert_bitarray [] (int_to_bitarray 1 2) [0, 1] = [false, true] ∧
    insert_int [] 1 [0, 1] ≠ insert_bitarray [] (int_to_bitarray 1 2) [0, 1] := by
  decide

theorem chunkGroups_getD (cs : Nat) :
    ∀ (n : Nat) (bytes : List Nat) (i : Nat), i < n →
      (chunkGroups bytes cs n).getD i [] = (bytes.drop (i * cs)).take cs := by
  intro n
  induction n with
  | zero => intro bytes i hi; omega
  | succ n ih =>
      intro bytes i hi
      cases i with
      | zero => simp [chunkGroups]
      | succ i =>
          show (chunkGroups (bytes.drop cs) cs n).getD i [] = _
          rw [ih (bytes.drop cs) i (by omega), List.drop_drop]
          refine congrArg (fun k => (bytes.drop k).take cs) ?_
          ring

theorem chunkGroups_length (cs : Nat) :
    ∀ (n : Nat) (bytes : List Nat), (chunkGroups bytes cs n).length = n := by
  intro n
  induction n with
  | zero => intro bytes; rfl
  | succ n ih => intro bytes; simp [chunkGroups, ih]

/-- C7: for every secret key and every `n ≥ 1`, `SecretKeyCollection.chunk(n)` yields exactly
`n` values (deterministic in the key and `n`): the compacted byte representation is cut into
`n` contiguous groups of `chunk_size = total_bytes // n` bytes (incremented by one when the
division is inexact, a group coming up short once the bytes run out), and the `i`-th value is
the big-endian 32-bit integer formed by the first 4 bytes of the SHA-256 digest of the `i`-th
group. -/
theorem chunk_spec (codes : List Nat) (n : Nat) (hn : 1 ≤ n)
    (hc : ∀ c ∈ codes, 32 ≤ c ∧ c < 128) :
    (chunkList codes n).length = n ∧
    chunkSize codes n = (bitsToBytes (secretKeyContent codes)).length / n +
      (if (bitsToBytes (secretKeyContent codes)).length % n ≠ 0 then 1 else 0) ∧
    ∀ i < n, (chunkList codes n).getD i 0 =
      SHA256.sha256first4
        (((bitsToBytes (secretKeyContent codes)).drop (i * chunkSize codes n)).take
          (chunkSize codes n)) := by
  refine ⟨by simp [chunkList, chunkGroups_length], rfl, ?_⟩
  intro i hi
  have hlen : i < (chunkGroups (bitsToBytes (secretKeyContent codes))
      (chunkSize codes n) n).length := by
    rw [chunkGroups_length]; omega
  have hg := chunkGroups_getD (chunkSize codes n) n (bitsToBytes (secretKeyContent codes)) i hi
  rw [List.getD_eq_getElem?_getD, List.getElem?_eq_getElem hlen] at hg
  show ((chunkGroups (bitsToBytes (secretKeyContent codes))
      (chunkSize codes n) n).map SHA256.sha256first4).getD i 0 = _
  rw [List.getD_eq_getElem?_getD, List.getElem?_map, List.getElem?_eq_getElem hlen]
  simp only [Option.map_some', Option.getD_some] at hg ⊢
  rw [hg]

/-- Witness for `chunk_spec`: the two-character key `"ab"` with `n = 1`. -/
theorem chunk_spec_witness :
    (chunkList [97, 98] 1).length = 1 ∧
    chunkSize [97, 98] 1 = (bitsToBytes (secretKeyContent [97, 98])).length / 1 +
      (if (bitsToBytes (secretKeyContent [97, 98])).length % 1 ≠ 0 then 1 else 0) ∧
    ∀ i < 1, (chunkList [97, 98] 1).getD i 0 =
      SHA256.sha256first4
        (((bitsToBytes (secretKeyContent [97, 98])).drop (i * chunkSize [97, 98] 1)).take
          (chunkSize [97, 98] 1)) :=
  chunk_spec [97, 98] 1 (by decide) (by decide)

theorem foldl_prepend (g : Nat → List Bool) (codes : List Nat) :
    ∀ acc : List Bool,
      codes.foldl (fun bits b => g b ++ bits) acc = (codes.reverse.map g).flatten ++ acc := by
  induction codes with
  | nil => intro acc; simp
  | cons c cs ih =>
      intro acc
      show cs.foldl _ (g c ++ acc) = _
      rw [ih (g c ++ acc)]
      simp [List.reverse_cons, List.map_append, List.flatten_append, List.append_assoc]

theorem secretKeyBits_eq_join (codes : List Nat) :
    secretKeyBits codes = (codes.reverse.map charSixBits).flatten := by
  have h := foldl_prepend charSixBits codes []
  simpa [secretKeyBits] using h

theorem join_map_charSixBits_length (l : List Nat) :
    ((l.map charSixBits).flatten).length = 6 * l.length := by
  induction l with
  | nil => rfl
  | cons c cs ih =>
      simp only [List.map_cons, List.flatten, List.length_append, ih, charSixBits,
        int_to_bitarray_length, List.length_cons]
      ring

theorem secretKeyBits_length (codes : List Nat) :
    (secretKeyBits codes).length = 6 * codes.length := by
  rw [secretKeyBits_eq_join, join_map_charSixBits_length, List.length_reverse]

theorem charSixBits_eq_mask31 (c : Nat) :
    charSixBits c = int_to_bitarray ((c - 32) &&& 0x1F) 6 := by
  unfold charSixBits
  rw [int_to_bitarray_eq_reverse_map, int_to_bitarray_eq_reverse_map]
  refine congrArg List.reverse ?_
  apply List.map_congr_left
  intro j hj
  have hj6 : j < 6 := List.mem_range.mp hj
  rw [Nat.testBit_land, Nat.testBit_land]
  have hm : ∀ k < 6, Nat.testBit 0x5F k = Nat.testBit 0x1F k := by decide
  rw [hm j hj6]

/-- C8 (amended): for every ASCII secret key, the compacted bit representation is the
concatenation, over the characters in reverse order, of one 6-bit group per character holding
the value `(c - 0x20) & 0x5F` truncated to 6 bits — which equals `(c - 0x20) & 0x1F`, NOT
`(c - 0x20) mod 64` as the claim states — and the whole bit string is byte-aligned by
zero-padding on the most-significant side. -/
theorem secretKeyContent_structure (codes : List Nat) (hc : ∀ c ∈ codes, 32 ≤ c ∧ c < 128) :
    secretKeyContent codes
      = List.replicate ((8 - (6 * codes.length) % 8) % 8) false
          ++ (codes.reverse.map (fun c => int_to_bitarray ((c - 32) &&& 0x1F) 6)).flatten := by
  have hjoin : secretKeyBits codes
      = (codes.reverse.map (fun c => int_to_bitarray ((c - 32) &&& 0x1F) 6)).flatten := by
    rw [secretKeyBits_eq_join]
    refine congrArg List.flatten ?_
    exact List.map_congr_left (fun c _ => charSixBits_eq_mask31 c)
  have hlen := secretKeyBits_length codes
  show (if (secretKeyBits codes).length % 8 = 0 then secretKeyBits codes
      else List.replicate (8 - (secretKeyBits codes).length % 8) false ++ secretKeyBits codes)
    = _
  rw [hlen]
  by_cases h8 : (6 * codes.length) % 8 = 0
  · rw [if_pos h8, h8, hjoin]
    simp
  · rw [if_neg h8, hjoin]
    have hm : (6 * codes.length) % 8 < 8 := Nat.mod_lt _ (by norm_num)
    rw [Nat.mod_eq_of_lt (show 8 - (6 * codes.length) % 8 < 8 by omega)]

/-- Witness for `secretKeyContent_structure` on the key `"ab"`. -/
theorem secretKeyContent_structure_witness :
    secretKeyContent [97, 98]
      = List.replicate ((8 - (6 * [97, 98].length) % 8) % 8) false
          ++ ([97, 98].reverse.map (fun c => int_to_bitarray ((c - 32) &&& 0x1F) 6)).flatten :=
  secretKeyContent_structure [97, 98] (by decide)

/-- C8 counterexample: for the character `'@'` (code 0x40) the source computes
`(0x40 - 0x20) & 0x5F = 0` and stores the 6-bit group `000000` — the whole compacted
representation of the key `"@"` is eight zero bits — whereas the claim's
`(c - 0x20) mod 64 = 32` would store `100000`. -/
theorem c8_counterexample :
    secretKeyContent [64] = List.replicate 8 false ∧
    claimed_charSixBits 64 = [true, false, false, false, false, false] ∧
    charSixBits 64 ≠ claimed_charSixBits 64 := by decide

theorem generateGo_eq_map (mp : Nat) :
    ∀ (bits : Nat) (s : MT19937.State),
      generateGo s mp bits
        = (mtNumbersGo s bits).map (fun r => min (r * (mp + 1) / 0xFFFFFFFF) mp) := by
  intro bits
  induction bits with
  | zero => intro s; rfl
  | succ bits ih =>
      intro s
      show (MT19937.randInt s 0 mp).1 :: generateGo (MT19937.randInt s 0 mp).2 mp bits = _
      have hr : MT19937.randInt s 0 mp
          = (min ((MT19937.extractNumber s).1 * (mp + 1) / 0xFFFFFFFF) mp,
             (MT19937.extractNumber s).2) := by
        show (min (min 0 mp + (MT19937.extractNumber s).1 * (max 0 mp - min 0 mp + 1) /
          0xFFFFFFFF) (max 0 mp), (MT19937.extractNumber s).2) = _
        rw [Nat.zero_min, Nat.zero_max, Nat.sub_zero, Nat.zero_add]
      rw [hr, ih]
      rfl

theorem mtNumbersGo_length (k : Nat) :
    ∀ s : MT19937.State, (mtNumbersGo s k).length = k := by
  induction k with
  | zero => intro s; rfl
  | succ k ih => intro s; simp [mtNumbersGo, ih]

/-- C5 (amended): `generate_bit_positions(seed, max_position, bits)` seeds the generator once
and draws `bits` positions; every draw — the `i`-th included — is scaled into the SAME closed
interval `[0, max_position]` (`min(floor(r_i * (max_position+1) / 0xFFFFFFFF), max_position)`
where `r_i` is the `i`-th raw 32-bit output); the bound does NOT grow by one per draw. -/
theorem generate_bit_positions_spec (seed mp bits i : Nat) :
    (generate_bit_positions seed mp bits).length = bits ∧
    (generate_bit_positions seed mp bits).getD i 0
      = min ((mtNumbers seed bits).getD i 0 * (mp + 1) / 0xFFFFFFFF) mp := by
  have hmain : generate_bit_positions seed mp bits
      = (mtNumbers seed bits).map (fun r => min (r * (mp + 1) / 0xFFFFFFFF) mp) := by
    rw [generate_bit_positions, mtNumbers, generateGo_eq_map]
  constructor
  · rw [hmain, List.length_map, mtNumbers, mtNumbersGo_length]
  · rw [hmain]
    rcases Nat.lt_or_ge i (mtNumbers seed bits).length with hi | hi
    · rw [List.getD_eq_getElem?_getD, List.getElem?_map, List.getElem?_eq_getElem hi,
        List.getD_eq_getElem?_getD, List.getElem?_eq_getElem hi]
      simp
    · rw [List.getD_eq_getElem?_getD, List.getD_eq_getElem?_getD,
        List.getElem?_eq_none (by simpa using hi), List.getElem?_eq_none hi]
      simp

/-- C5 counterexample: with seed 0, `max_position = 0` and two draws, the source generates
`[0, 0]` (every draw bounded by `max_position`), while the claim's growing-bound rule yields
`[0, 1]` (the second raw output 2546248239 scales to 1 in `[0, 1]`); the claim as stated is
false of the code. -/
theorem c5_counterexample :
    generate_bit_positions 0 0 2 = [0, 0] ∧
    claimed_generate_bit_positions 0 0 2 = [0, 1] ∧
    generate_bit_positions 0 0 2 ≠ claimed_generate_bit_positions 0 0 2 := by
  refine ⟨by decide, by decide, ?_⟩
  intro h
  have h2 := congrArg (fun l => List.getD l 1 0) h
  revert h2
  decide

/-- C6 (amended): `generate_bit_positions` seeds the Mersenne Twister with its `seed` argument
directly (`MT19937(seed)`): the generated positions are exactly the scaled raw outputs of the
generator whose state is `MT19937.initState seed` — the raw seed itself, with no secret-key
hashing interposed (no `hash_seed` function exists anywhere in the source; the secret key
reaches position generation only through the SHA-256 chunk-derived seed sources). -/
theorem generate_bit_positions_direct_seed (seed mp bits : Nat) :
    generate_bit_positions seed mp bits
      = (mtNumbersGo (MT19937.initState seed) bits).map
          (fun r => min (r * (mp + 1) / 0xFFFFFFFF) mp) := by
  rw [generate_bit_positions, generateGo_eq_map]

/-- C6 counterexample: with raw seed 5 and the secret key `"music makes me lose control"`,
`hash_seed(5, key) = 1085470337 ≠ 5`, and the positions the source derives from the raw seed
(`[22]` for `max_position = 100`, one bit) differ from the positions the claimed hash-seeded
generator would derive (`[80]`): the source seeds the generator with the raw seed directly,
never with `hash_seed(raw_seed, secret_key)`. -/
theorem c6_counterexample :
    spec_hash_seed 5 musicKey = 1085470337 ∧
    generate_bit_positions 5 100 1 = [22] ∧
    generate_bit_positions (spec_hash_seed 5 musicKey) 100 1 = [80] ∧
    generate_bit_positions 5 100 1 ≠ generate_bit_positions (spec_hash_seed 5 musicKey) 100 1 := by
  have h1 : spec_hash_seed 5 musicKey = 1085470337 := by decide
  have h2 : generate_bit_positions 5 100 1 = [22] := by decide
  have h3 : generate_bit_positions 1085470337 100 1 = [80] := by decide
  refine ⟨h1, h2, ?_, ?_⟩
  · rw [h1, h3]
  · rw [h1, h2, h3]
    decide

/-- C1: the concrete scenario cannot round-trip because `Token.encode` raises: with the
configured single 8-bit integer layer holding 5 (and any `os.urandom` outcome for the 32-bit
stored token), encode reads the undefined name `positions` on the first layer iteration and
raises NameError instead of producing a public token, so decode can return neither the value
5 nor a matching private token. -/
theorem c1_encode_raises :
    token_encode cfgMusic [5] [171, 205, 239, 1] = .error .nameError := by decide

/-- C2: with the test suite's own zero-layer configuration (`random_bits = 123`), encode
succeeds and returns a public token of `8 * (123 // 8) = 120` bits (`os.urandom(123//8)`
loses the remainder bits), while `public_token_bit_length()` returns 512 (it reads
`self.random_bits`, which `config()` never updates): the claimed equality fails on both
counts — neither equals the other, and neither equals the configured width 123. -/
theorem c2_length_mismatch :
    (token_encode cfg123 [] (List.replicate 15 171)).map (fun r => r.2.length) = .ok 120 ∧
    public_token_bit_length cfg123 false = 512 ∧
    cfg123.storedTokenBits = 123 ∧
    (120 : Nat) ≠ 123 ∧ (512 : Nat) ≠ 123 ∧ (120 : Nat) ≠ 512 := by
  refine ⟨by decide, by decide, by decide, by decide, by decide, by decide⟩

/-- C9: decode does NOT return a non-exceptional no-result value: for the malformed external
text `"***"` (and equally for the well-formed-but-wrong-length `"AAAA"`), `decode_b64`
correctly reports failure as `False`, but `Token.decode` then executes `return none` where
`none` is an undefined Python name — the decode call raises NameError instead of returning
the documented failure value. -/
theorem c9_decode_raises :
    decode_b64 [42, 42, 42] (public_token_bit_length cfg123 true) = none ∧
    token_decode cfg123 [42, 42, 42] = .error .nameError ∧
    token_decode cfg123 [65, 65, 65, 65] = .error .nameError := by
  refine ⟨by decide, by decide, by decide⟩

/-- C10: for every `bits ≥ 1` and `v < 2^bits`, `BitCollection.from_int(v, bits)` — which wraps
`int_to_bitarray(v, bits)` — produces a collection of length exactly `bits`, and `to_int()`
— which is `bitarray_to_int` of the content — returns `v`: the integer is stored most
significant bit first and the round trip is the identity on in-range values. -/
theorem from_int_to_int (v bits : Nat) (h1 : 1 ≤ bits) (h2 : v < 2 ^ bits) :
    (int_to_bitarray v bits).length = bits ∧ bitarray_to_int (int_to_bitarray v bits) = v :=
  ⟨int_to_bitarray_length v bits, by
    rw [bitarray_to_int_int_to_bitarray, Nat.mod_eq_of_lt h2]⟩

/-- Witness for `from_int_to_int` at `v = 5`, `bits = 8`. -/
theorem from_int_to_int_witness :
    (int_to_bitarray 5 8).length = 8 ∧ bitarray_to_int (int_to_bitarray 5 8) = 5 :=
  from_int_to_int 5 8 (by decide) (by decide)

end TokenCloak
